import Mathlib

/-!
Verification of the odata-simple-client crate (src/lib.rs, src/path.rs,
src/filter.rs, src/ratelimiting.rs).

The Rust sources are embedded shallowly:

* percent-encoding (the urlencoding crate, called by the sources with its
  documented behaviour: bytes A-Z, a-z, 0-9, hyphen, dot, underscore and
  tilde are kept, every other byte of the UTF-8 encoding becomes a percent
  escape with uppercase hex digits) is implemented over explicit UTF-8
  byte lists;
* the HashMap of query options is modelled as an association list whose
  insert replaces the value of an existing key; PathBuilder::build sorts
  the formatted entry strings, so the iteration order of the map never
  reaches the output;
* machine integers (u32 counts, usize ids) are modelled as Nat: the code
  only converts them to decimal strings, no arithmetic overflows occur;
* PathBuilder::build's final parse::<PathAndQuery>() is validation done by
  the external hyper crate; build is modelled as the assembled string that
  the code hands to that parser;
* deserialize_as is modelled over the aggregated response body: a hyper
  buffering failure, or the body's bytes; serde_json::from_str is a
  parameter, UTF-8 decoding of Read::read_to_string is implemented.
-/

namespace OData

/-! ### UTF-8 encoding and strict decoding -/

/-- UTF-8 encoding of a single scalar value, as the list of its bytes. -/
def utf8EncodeChar (c : Char) : List Nat :=
  let n := c.toNat
  if n < 0x80 then [n]
  else if n < 0x800 then [0xC0 + n / 0x40, 0x80 + n % 0x40]
  else if n < 0x10000 then
    [0xE0 + n / 0x1000, 0x80 + n / 0x40 % 0x40, 0x80 + n % 0x40]
  else
    [0xF0 + n / 0x40000, 0x80 + n / 0x1000 % 0x40, 0x80 + n / 0x40 % 0x40, 0x80 + n % 0x40]

/-- UTF-8 encoding of a list of characters. -/
def utf8EncodeList : List Char → List Nat
  | [] => []
  | c :: cs => utf8EncodeChar c ++ utf8EncodeList cs

/-- The UTF-8 bytes of a string. -/
def utf8Encode (s : String) : List Nat := utf8EncodeList s.data

/-- Strict UTF-8 decoding, as a byte-at-a-time state machine: rem is the
number of continuation bytes still expected (0 when no character is in
progress), acc the scalar value accumulated so far, lo the smallest
scalar value the current sequence is allowed to produce (rejecting
overlong forms).  Surrogate code points and values above 0x10FFFF are
rejected when the sequence completes: exactly the byte sequences Rust's
UTF-8 validation rejects. -/
def utf8Aux : Nat → Nat → Nat → List Nat → Option (List Char)
  | 0, _, _, [] => some []
  | _+1, _, _, [] => none
  | 0, _, _, b :: bs =>
    if b < 0x80 then (utf8Aux 0 0 0 bs).map (fun cs => Char.ofNat b :: cs)
    else if b < 0xC0 then none
    else if b < 0xE0 then utf8Aux 1 (b - 0xC0) 0x80 bs
    else if b < 0xF0 then utf8Aux 2 (b - 0xE0) 0x800 bs
    else if b < 0xF8 then utf8Aux 3 (b - 0xF0) 0x10000 bs
    else none
  | 1, acc, lo, b :: bs =>
    if 0x80 ≤ b ∧ b < 0xC0 then
      if lo ≤ acc * 0x40 + (b - 0x80) ∧
          ¬ (0xD800 ≤ acc * 0x40 + (b - 0x80) ∧ acc * 0x40 + (b - 0x80) < 0xE000) ∧
          acc * 0x40 + (b - 0x80) < 0x110000 then
        (utf8Aux 0 0 0 bs).map (fun cs => Char.ofNat (acc * 0x40 + (b - 0x80)) :: cs)
      else none
    else none
  | rem+2, acc, lo, b :: bs =>
    if 0x80 ≤ b ∧ b < 0xC0 then utf8Aux (rem+1) (acc * 0x40 + (b - 0x80)) lo bs
    else none

/-- Strict UTF-8 decoding of a byte list. -/
def utf8Decode (bytes : List Nat) : Option (List Char) := utf8Aux 0 0 0 bytes

/-- UTF-8 decoding of a byte list into a string, as performed by
Read::read_to_string (which fails on invalid UTF-8). -/
def utf8DecodeStr (bytes : List Nat) : Option String :=
  (utf8Decode bytes).map String.mk

/-! ### Percent-encoding (the urlencoding crate) -/

/-- Bytes the urlencoding crate leaves unescaped: A-Z, a-z, 0-9 and the
four unreserved marks hyphen, dot, underscore, tilde. -/
def isUnreservedByte (b : Nat) : Bool :=
  (0x30 ≤ b && b ≤ 0x39) || (0x41 ≤ b && b ≤ 0x5A) || (0x61 ≤ b && b ≤ 0x7A) ||
    b == 0x2D || b == 0x2E || b == 0x5F || b == 0x7E

/-- Uppercase hexadecimal digit for a value below 16. -/
def hexUpperChar (n : Nat) : Char :=
  if n < 10 then Char.ofNat (0x30 + n) else Char.ofNat (0x37 + n)

/-- The characters a single body byte contributes to the encoded text. -/
def encodeByteChars (b : Nat) : List Char :=
  if isUnreservedByte b then [Char.ofNat b]
  else ['%', hexUpperChar (b / 16), hexUpperChar (b % 16)]

/-- urlencoding::encode: percent-encode every UTF-8 byte of the input
that is not unreserved. -/
def urlencoding.encode (s : String) : String :=
  String.mk ((utf8Encode s).map encodeByteChars).flatten

/-! ### The option map (HashMap of static keys to encoded values) -/

/-- HashMap::insert: replace the value of an existing key, otherwise add
the entry.  The position of the entry in the association list is the
iteration-order artefact the sources never rely on: build sorts. -/
def mapInsert (k v : String) : List (String × String) → List (String × String)
  | [] => [(k, v)]
  | (k', v') :: rest =>
    if k' = k then (k, v) :: rest else (k', v') :: mapInsert k v rest

/-- HashMap::entry .and_modify(f).or_insert_with(v): modify the value of
an existing key with f, otherwise insert v. -/
def mapModifyOrInsert (k : String) (f : String → String) (v : String) :
    List (String × String) → List (String × String)
  | [] => [(k, v)]
  | (k', v') :: rest =>
    if k' = k then (k, f v') :: rest else (k', v') :: mapModifyOrInsert k f v rest

/-- The keys of an option map. -/
def keysOf (l : List (String × String)) : List String := l.map Prod.fst

/-- Removal of the first occurrence of an entry (proof support for the
permutation argument below). -/
def eraseEntry (x : String × String) : List (String × String) → List (String × String)
  | [] => []
  | y :: rest => if y = x then rest else y :: eraseEntry x rest

/-! ### Enums of src/path.rs -/

/-- Direction of ordering (src/path.rs). -/
inductive Direction where
  | Descending
  | Ascending
deriving DecidableEq

/-- The string the code writes for each direction. -/
def Direction.toStr : Direction → String
  | .Descending => "desc"
  | .Ascending => "asc"

/-- Comparison operators of the OData filter (src/path.rs; src/filter.rs
declares the identical enum). -/
inductive Comparison where
  | Equal
  | NotEqual
  | GreaterThan
  | GreaterOrEqual
  | LessThan
  | LessOrEqual
deriving DecidableEq

/-- The OData operator token for each comparison. -/
def Comparison.toStr : Comparison → String
  | .Equal => "eq"
  | .NotEqual => "ne"
  | .GreaterThan => "gt"
  | .GreaterOrEqual => "ge"
  | .LessThan => "lt"
  | .LessOrEqual => "le"

/-- Requested format of the returned data (src/path.rs). -/
inductive Format where
  | Xml
  | Json
deriving DecidableEq

/-- The string the code writes for each format. -/
def Format.toStr : Format → String
  | .Xml => "xml"
  | .Json => "json"

/-- Inline count mode (src/path.rs). -/
inductive InlineCount where
  | None
  | AllPages
deriving DecidableEq

/-- The string the code writes for each inline count mode. -/
def InlineCount.toStr : InlineCount → String
  | .None => "none"
  | .AllPages => "allpages"

/-! ### PathBuilder (src/path.rs) -/

/-- The PathBuilder struct of src/path.rs. -/
structure PathBuilder where
  base_path : String
  resource_type : String
  id : Option Nat
  inner : List (String × String)
deriving DecidableEq

/-- PathBuilder::new_with_base. -/
def PathBuilder.new_with_base (base_path resource_type : String) : PathBuilder :=
  { id := none, base_path := base_path, resource_type := resource_type, inner := [] }

/-- PathBuilder::new. -/
def PathBuilder.new (resource_type : String) : PathBuilder :=
  PathBuilder.new_with_base "" resource_type

/-- PathBuilder::id (named setId here because the field is called id). -/
def PathBuilder.setId (b : PathBuilder) (i : Nat) : PathBuilder :=
  { b with id := some i }

/-- PathBuilder::base_path, the setter (named setBasePath here because the
field is called base_path). -/
def PathBuilder.setBasePath (b : PathBuilder) (p : String) : PathBuilder :=
  { b with base_path := p }

/-- PathBuilder::order_by: store the encoding of "field dir" under
orderby. -/
def PathBuilder.order_by (b : PathBuilder) (field : String) (order : Direction) : PathBuilder :=
  { b with inner := mapInsert "orderby" (urlencoding.encode (field ++ " " ++ order.toStr)) b.inner }

/-- PathBuilder::top: store the encoding of the decimal count under top. -/
def PathBuilder.top (b : PathBuilder) (count : Nat) : PathBuilder :=
  { b with inner := mapInsert "top" (urlencoding.encode (toString count)) b.inner }

/-- PathBuilder::format: store the literal "xml" or "json" under format
(the code does not call urlencoding::encode here). -/
def PathBuilder.format (b : PathBuilder) (f : Format) : PathBuilder :=
  { b with inner := mapInsert "format" f.toStr b.inner }

/-- PathBuilder::skip: store the encoding of the decimal count under
skip. -/
def PathBuilder.skip (b : PathBuilder) (count : Nat) : PathBuilder :=
  { b with inner := mapInsert "skip" (urlencoding.encode (toString count)) b.inner }

/-- PathBuilder::inline_count: store the encoding of "none" or "allpages"
under inlinecount. -/
def PathBuilder.inline_count (b : PathBuilder) (value : InlineCount) : PathBuilder :=
  { b with inner := mapInsert "inlinecount" (urlencoding.encode value.toStr) b.inner }

/-- PathBuilder::filter: store the encoding of "field op value" under
filter, replacing any previous filter. -/
def PathBuilder.filter (b : PathBuilder) (field : String) (comparison : Comparison)
    (value : String) : PathBuilder :=
  { b with
    inner := mapInsert "filter"
      (urlencoding.encode (field ++ " " ++ comparison.toStr ++ " " ++ value)) b.inner }

/-- PathBuilder::expand: encode each field individually, join with
commas, and append (comma-separated) to an existing expand value, or
insert the joined string when expand is absent. -/
def PathBuilder.expand (b : PathBuilder) (field : List String) : PathBuilder :=
  let encoded := String.intercalate "," (field.map urlencoding.encode)
  { b with
    inner := mapModifyOrInsert "expand" (fun current => current ++ "," ++ encoded)
      encoded b.inner }

/-! ### Sorting of the serialized entries

Rust sorts the Vec of already formatted entry strings with String's Ord,
which is the lexicographic order on UTF-8 bytes; on Lean's character
lists this is the lexicographic order on scalar values, which agrees with
the byte order because UTF-8 preserves scalar order.  charListLe is an
executable version of that order, proved below to agree with the String
order of Mathlib. -/

/-- Executable lexicographic less-or-equal on character lists. -/
def charListLe : List Char → List Char → Bool
  | [], _ => true
  | _ :: _, [] => false
  | c :: cs, d :: ds => if c < d then true else if d < c then false else charListLe cs ds

/-- Executable strict lexicographic order on character lists. -/
def charListLt : List Char → List Char → Bool
  | [], [] => false
  | [], _ :: _ => true
  | _ :: _, [] => false
  | c :: cs, d :: ds => if c < d then true else if d < c then false else charListLt cs ds

/-- Executable String less-or-equal used to model Vec::sort on strings. -/
def strLeB (s t : String) : Bool := charListLe s.data t.data

/-- Executable strict String order. -/
def strLtB (s t : String) : Bool := charListLt s.data t.data

/-- Vec::sort on strings: a stable sort by the lexicographic order. -/
def sortStrings (l : List String) : List String :=
  l.insertionSort (fun a b => strLeB a b = true)

/-- The string "$key=value" emitted for one entry: the key is
percent-encoded, the stored value is emitted unchanged
(src/path.rs, build). -/
def fmtEntry (kv : String × String) : String :=
  "$" ++ urlencoding.encode kv.1 ++ "=" ++ kv.2

/-- The query part of PathBuilder::build: format every entry, sort the
formatted strings, join with ampersands. -/
def PathBuilder.buildQuery (b : PathBuilder) : String :=
  String.intercalate "&" (sortStrings (b.inner.map fmtEntry))

/-- PathBuilder::build: assemble base path, encoded resource type, the
optional parenthesised encoded id, a question mark and the query.  The
final parse::<PathAndQuery>() of the code is hyper's validation of this
string and is external; build is modelled as the string itself. -/
def PathBuilder.build (b : PathBuilder) : String :=
  b.base_path ++ "/" ++ urlencoding.encode b.resource_type ++
    (match b.id with
      | some i => "(" ++ urlencoding.encode (toString i) ++ ")"
      | none => "") ++
    "?" ++ b.buildQuery

/-! ### GetRequest and ListRequest (src/lib.rs) -/

/-- GetRequest of src/lib.rs: a PathBuilder restricted to format and
expand. -/
structure GetRequest where
  builder : PathBuilder

/-- GetRequest::new. -/
def GetRequest.new (resource_type : String) (i : Nat) : GetRequest :=
  ⟨(PathBuilder.new resource_type).setId i⟩

/-- GetRequest::format. -/
def GetRequest.format (r : GetRequest) (f : Format) : GetRequest :=
  ⟨r.builder.format f⟩

/-- GetRequest::expand. -/
def GetRequest.expand (r : GetRequest) (fields : List String) : GetRequest :=
  ⟨r.builder.expand fields⟩

/-- ListRequest of src/lib.rs. -/
structure ListRequest where
  builder : PathBuilder

/-- ListRequest::new. -/
def ListRequest.new (resource_type : String) : ListRequest :=
  ⟨PathBuilder.new resource_type⟩

/-- ListRequest::format. -/
def ListRequest.format (r : ListRequest) (f : Format) : ListRequest :=
  ⟨r.builder.format f⟩

/-- ListRequest::order_by. -/
def ListRequest.order_by (r : ListRequest) (field : String) (direction : Direction) : ListRequest :=
  ⟨r.builder.order_by field direction⟩

/-- ListRequest::top. -/
def ListRequest.top (r : ListRequest) (count : Nat) : ListRequest :=
  ⟨r.builder.top count⟩

/-- ListRequest::skip. -/
def ListRequest.skip (r : ListRequest) (count : Nat) : ListRequest :=
  ⟨r.builder.skip count⟩

/-- ListRequest::inline_count. -/
def ListRequest.inline_count (r : ListRequest) (value : InlineCount) : ListRequest :=
  ⟨r.builder.inline_count value⟩

/-- ListRequest::filter. -/
def ListRequest.filter (r : ListRequest) (field : String) (comparison : Comparison)
    (value : String) : ListRequest :=
  ⟨r.builder.filter field comparison value⟩

/-- ListRequest::expand. -/
def ListRequest.expand (r : ListRequest) (fields : List String) : ListRequest :=
  ⟨r.builder.expand fields⟩

/-! ### Filter (src/filter.rs, the legacy revision of the option set) -/

/-- Order enum of src/filter.rs. -/
inductive Order where
  | Descending
  | Ascending
deriving DecidableEq

/-- The string src/filter.rs writes for each order. -/
def Order.toStr : Order → String
  | .Descending => "desc"
  | .Ascending => "asc"

/-- The Filter struct of src/filter.rs: the same HashMap of options, but
the values are stored raw. -/
structure Filter where
  inner : List (String × String)
deriving DecidableEq

/-- Filter::default. -/
def Filter.default : Filter := ⟨[]⟩

/-- Filter::order_by: store the raw "field dir" (no percent-encoding),
direction defaulting to ascending. -/
def Filter.order_by (f : Filter) (field : String) (order : Option Order) : Filter :=
  ⟨mapInsert "orderby" (field ++ " " ++ (order.getD Order.Ascending).toStr) f.inner⟩

/-- Filter::top: store the raw decimal count. -/
def Filter.top (f : Filter) (count : Nat) : Filter :=
  ⟨mapInsert "top" (toString count) f.inner⟩

/-- Filter::skip: store the raw decimal count. -/
def Filter.skip (f : Filter) (count : Nat) : Filter :=
  ⟨mapInsert "skip" (toString count) f.inner⟩

/-- Filter::inline_count: store the raw value string. -/
def Filter.inline_count (f : Filter) (value : String) : Filter :=
  ⟨mapInsert "inlinecount" value f.inner⟩

/-- Filter::filter: store the raw "field op value", replacing any
previous filter. -/
def Filter.filter (f : Filter) (field : String) (comparison : Comparison)
    (value : String) : Filter :=
  ⟨mapInsert "filter" (field ++ " " ++ comparison.toStr ++ " " ++ value) f.inner⟩

/-- Rust's Ord on pairs, as used by itertools sorted() on (key, value):
compare the keys, break ties with the values. -/
def pairLeB (p q : String × String) : Bool :=
  if p.1 = q.1 then strLeB p.2 q.2 else strLeB p.1 q.1

/-- The entries of a Filter in the order itertools sorted() yields them. -/
def Filter.sortedInner (f : Filter) : List (String × String) :=
  f.inner.insertionSort (fun p q => pairLeB p q = true)

/-- Filter::to_query: iterate the sorted entries and percent-encode both
the key and the stored value of each (src/filter.rs, to_query). -/
def Filter.to_query (f : Filter) : String :=
  String.intercalate "&" (f.sortedInner.map (fun kv =>
    "$" ++ urlencoding.encode kv.1 ++ "=" ++ urlencoding.encode kv.2))

/-! ### Response decoding (src/lib.rs, deserialize_as and Error) -/

/-- The Error enum of src/lib.rs.  E stands for serde_json::Error; the
payloads of the other variants play no role in the claims and are
dropped.  IoError stands for the Io variant, which wraps the
std::io::Error of read_to_string. -/
inductive Error (E : Type) where
  | Uri : Error E
  | Http : Error E
  | Hyper : Error E
  | Serde : E → String → Error E
  | IoError : Error E
deriving DecidableEq

/-- The outcome of hyper::body::aggregate: the buffered bytes of the
response body, or a hyper error raised while buffering the stream. -/
inductive AggregatedBody where
  | ok : List Nat → AggregatedBody
  | hyperErr : AggregatedBody

/-- deserialize_as of src/lib.rs: a buffering failure propagates as the
Hyper variant; Read::read_to_string of the buffered bytes fails on
invalid UTF-8 with a std::io error, the IoError variant; a failing
serde_json::from_str (the parameter from_str) yields Serde carrying the
parse error and the full decoded text. -/
def deserialize_as {E T : Type} (from_str : String → Except E T)
    (response : AggregatedBody) : Except (Error E) T :=
  match response with
  | .hyperErr => .error .Hyper
  | .ok bytes =>
    match utf8DecodeStr bytes with
    | none => .error .IoError
    | some content =>
      match from_str content with
      | .error e => .error (.Serde e content)
      | .ok v => .ok v

/-! ### Rate limiting (src/ratelimiting.rs) -/

/-- The RateLimitedDataSource struct of src/ratelimiting.rs.  The wrapped
DataSource and the Arc of the governor RateLimiter are modelled by the
identity of the heap allocation each handle points to: Arc::clone copies
the pointer, never the pointee. -/
structure RateLimitedDataSource where
  datasource : Nat
  rate_limiter : Nat
deriving DecidableEq

/-- RateLimitedDataSource::new: wrap a data source with a fresh limiter
allocation. -/
def RateLimitedDataSource.new (datasource limiter : Nat) : RateLimitedDataSource :=
  ⟨datasource, limiter⟩

/-- derive(Clone): clone the DataSource handle and Arc::clone the
limiter, so the clone points at the same limiter allocation. -/
def RateLimitedDataSource.clone (s : RateLimitedDataSource) : RateLimitedDataSource :=
  { datasource := s.datasource, rate_limiter := s.rate_limiter }

/-- The limiter instance RateLimitedDataSource::execute awaits
until_ready on before dispatching (src/ratelimiting.rs, execute). -/
def RateLimitedDataSource.executeLimiter (s : RateLimitedDataSource) : Nat :=
  s.rate_limiter

/-- The sources reachable from one constructed source by repeated
cloning. -/
inductive DerivedClone (s : RateLimitedDataSource) : RateLimitedDataSource → Prop
  | refl : DerivedClone s s
  | step {t : RateLimitedDataSource} : DerivedClone s t → DerivedClone s t.clone

/-- One request admitted by a limiter: the (abstract) time of admission
and the identity of the limiter allocation that admitted it. -/
structure Admission where
  time : Nat
  limiter : Nat
deriving DecidableEq

/-- The number of admissions a given limiter allocation granted inside
the window of length w starting at t0. -/
def admittedOn (tr : List Admission) (L t0 w : Nat) : Nat :=
  (tr.filter (fun a => a.limiter == L && decide (t0 ≤ a.time) && decide (a.time < t0 + w))).length

/-- The number of admissions in the trace inside the window, over all
limiters. -/
def admittedTotal (tr : List Admission) (t0 w : Nat) : Nat :=
  (tr.filter (fun a => decide (t0 ≤ a.time) && decide (a.time < t0 + w))).length

/-- Modelled from the spec: the rate limiter primitive (the governor
crate, external to src/) is specified only through its integration
contract: one limiter instance admits at most quota requests within any
window of length w. -/
def LimiterContract (tr : List Admission) (L quota w : Nat) : Prop :=
  ∀ t0, admittedOn tr L t0 w ≤ quota

/-! ### Option-setting call sequences

Opt enumerates the option-setting calls of PathBuilder other than
expand (the one call the determinism claim excludes); FOpt does the same
for the legacy Filter. -/

/-- An option-setting call on PathBuilder, excluding expand. -/
inductive Opt where
  | order_by (field : String) (dir : Direction)
  | top (count : Nat)
  | skip (count : Nat)
  | format (f : Format)
  | inline_count (v : InlineCount)
  | filter (field : String) (cmp : Comparison) (value : String)

/-- Apply one option-setting call. -/
def applyOpt (b : PathBuilder) : Opt → PathBuilder
  | .order_by f d => b.order_by f d
  | .top n => b.top n
  | .skip n => b.skip n
  | .format f => b.format f
  | .inline_count v => b.inline_count v
  | .filter f c v => b.filter f c v

/-- Apply a sequence of option-setting calls, first call first. -/
def applyOpts (b : PathBuilder) (ops : List Opt) : PathBuilder :=
  ops.foldl applyOpt b

/-- An option-setting call on the legacy Filter. -/
inductive FOpt where
  | order_by (field : String) (ord : Option Order)
  | top (count : Nat)
  | skip (count : Nat)
  | inline_count (value : String)
  | filter (field : String) (cmp : Comparison) (value : String)

/-- Apply one Filter option-setting call. -/
def applyFOpt (f : Filter) : FOpt → Filter
  | .order_by fd o => f.order_by fd o
  | .top n => f.top n
  | .skip n => f.skip n
  | .inline_count v => f.inline_count v
  | .filter fd c v => f.filter fd c v

/-- Apply a sequence of Filter option-setting calls, first call first. -/
def applyFOpts (f : Filter) (ops : List FOpt) : Filter :=
  ops.foldl applyFOpt f

/-- The closed vocabulary of keys PathBuilder ever stores. -/
def pathVocab : List String :=
  ["expand", "filter", "format", "inlinecount", "orderby", "skip", "top"]

/-- The closed vocabulary of keys the legacy Filter ever stores. -/
def filterVocab : List String :=
  ["filter", "inlinecount", "orderby", "skip", "top"]

/-- True when two character lists disagree at some position inside both,
i.e. neither is a prefix of the other. -/
def divergesL : List Char → List Char → Bool
  | c :: cs, d :: ds => if c = d then divergesL cs ds else true
  | _, _ => false

/-- The order in which build compares two formatted entries, pulled back
to the entries themselves. -/
def fmtLeB (p q : String × String) : Bool := strLeB (fmtEntry p) (fmtEntry q)

/-- The entries of a PathBuilder in the order their formatted strings
appear in the sorted query. -/
def sortedEntries (b : PathBuilder) : List (String × String) :=
  b.inner.insertionSort (fun p q => fmtLeB p q = true)

/-! ## Lemmas on the lexicographic order of character lists -/

theorem charList_cons_lex_iff_of_ne {c d : Char} (hne : c ≠ d) {cs ds : List Char} :
    List.Lex (· < ·) (c :: cs) (d :: ds) ↔ c < d := by
  constructor
  · intro hlt
    cases hlt with
    | cons h => exact absurd rfl hne
    | rel h => exact h
  · intro h
    exact List.Lex.rel h

theorem charListLe_iff : ∀ cs ds : List Char,
    charListLe cs ds = true ↔ ¬ List.Lex (· < ·) ds cs
  | [], ds => iff_of_true rfl (List.Lex.not_nil_right _ ds)
  | c :: cs, [] =>
    iff_of_false (by simp [charListLe]) (not_not_intro List.Lex.nil)
  | c :: cs, d :: ds => by
    rcases lt_trichotomy c d with h | h | h
    · simp only [charListLe, if_pos h]
      refine iff_of_true (by trivial) ?_
      rw [charList_cons_lex_iff_of_ne (ne_of_gt h)]
      exact lt_asymm h
    · subst h
      simp only [charListLe, if_neg (lt_irrefl c)]
      rw [List.Lex.cons_iff]
      exact charListLe_iff cs ds
    · simp only [charListLe, if_neg (lt_asymm h), if_pos h]
      refine iff_of_false (by simp) ?_
      rw [not_not, charList_cons_lex_iff_of_ne (ne_of_lt h)]
      exact h

theorem charListLt_iff : ∀ cs ds : List Char,
    charListLt cs ds = true ↔ List.Lex (· < ·) cs ds
  | [], [] => iff_of_false (by simp [charListLt]) (List.Lex.not_nil_right _ [])
  | [], d :: ds => iff_of_true rfl List.Lex.nil
  | c :: cs, [] => iff_of_false (by simp [charListLt]) (List.Lex.not_nil_right _ _)
  | c :: cs, d :: ds => by
    rcases lt_trichotomy c d with h | h | h
    · simp only [charListLt, if_pos h]
      exact iff_of_true (by trivial) ((charList_cons_lex_iff_of_ne (ne_of_lt h)).mpr h)
    · subst h
      simp only [charListLt, if_neg (lt_irrefl c)]
      rw [List.Lex.cons_iff]
      exact charListLt_iff cs ds
    · simp only [charListLt, if_neg (lt_asymm h), if_pos h]
      refine iff_of_false (by simp) ?_
      rw [charList_cons_lex_iff_of_ne (ne_of_gt h)]
      exact lt_asymm h

theorem strLeB_iff (s t : String) : strLeB s t = true ↔ s ≤ t := by
  have hle : (s ≤ t) ↔ ¬ t < s := Iff.rfl
  rw [hle, String.lt_iff_toList_lt]
  exact charListLe_iff s.data t.data

theorem strLtB_iff (s t : String) : strLtB s t = true ↔ s < t := by
  rw [String.lt_iff_toList_lt]
  exact charListLt_iff s.data t.data

instance : IsTotal String (fun a b => strLeB a b = true) :=
  ⟨fun a b => by rw [strLeB_iff, strLeB_iff]; exact le_total a b⟩

instance : IsTrans String (fun a b => strLeB a b = true) :=
  ⟨fun a b c h1 h2 => by
    rw [strLeB_iff] at h1 h2 ⊢
    exact le_trans h1 h2⟩

instance : IsAntisymm String (fun a b => strLeB a b = true) :=
  ⟨fun a b h1 h2 => by
    rw [strLeB_iff] at h1 h2
    exact le_antisymm h1 h2⟩

instance : IsTotal (String × String) (fun p q => fmtLeB p q = true) :=
  ⟨fun p q => IsTotal.total (r := fun a b : String => strLeB a b = true)
    (fmtEntry p) (fmtEntry q)⟩

instance : IsTrans (String × String) (fun p q => fmtLeB p q = true) :=
  ⟨fun p q r h1 h2 => IsTrans.trans (r := fun a b : String => strLeB a b = true)
    (fmtEntry p) (fmtEntry q) (fmtEntry r) h1 h2⟩

theorem lex_append_iff_of_divergesL :
    ∀ p q : List Char, divergesL p q = true →
      ∀ x y : List Char, (List.Lex (· < ·) (p ++ x) (q ++ y) ↔ List.Lex (· < ·) p q)
  | [], q, h => by simp [divergesL] at h
  | c :: p, [], h => by simp [divergesL] at h
  | c :: p, d :: q, h => by
    intro x y
    by_cases hcd : c = d
    · subst hcd
      have h' : divergesL p q = true := by simpa [divergesL] using h
      rw [List.cons_append, List.cons_append, List.Lex.cons_iff, List.Lex.cons_iff]
      exact lex_append_iff_of_divergesL p q h' x y
    · rw [List.cons_append, List.cons_append, charList_cons_lex_iff_of_ne hcd,
        charList_cons_lex_iff_of_ne hcd]

/-! ## Sorting the formatted entries is sorting the entries by key -/

theorem orderedInsert_map_fmt (p : String × String) :
    ∀ l : List (String × String),
      (l.map fmtEntry).orderedInsert (fun a b => strLeB a b = true) (fmtEntry p)
        = (l.orderedInsert (fun a b => fmtLeB a b = true) p).map fmtEntry
  | [] => rfl
  | x :: t => by
    simp only [List.map_cons, List.orderedInsert]
    by_cases h : fmtLeB p x = true
    · rw [if_pos h, if_pos (show strLeB (fmtEntry p) (fmtEntry x) = true from h),
        List.map_cons, List.map_cons]
    · rw [if_neg h, if_neg (show ¬ strLeB (fmtEntry p) (fmtEntry x) = true from h),
        List.map_cons, orderedInsert_map_fmt p t]

theorem sortStrings_map_fmt : ∀ l : List (String × String),
    sortStrings (l.map fmtEntry)
      = (l.insertionSort (fun a b => fmtLeB a b = true)).map fmtEntry
  | [] => rfl
  | x :: t => by
    simp only [sortStrings, List.map_cons, List.insertionSort]
    rw [show List.insertionSort (fun a b => strLeB a b = true) (t.map fmtEntry)
        = sortStrings (t.map fmtEntry) from rfl]
    rw [sortStrings_map_fmt t]
    exact orderedInsert_map_fmt x _

/-! ## Lookup and key lemmas of the association-list map -/

theorem lookup_cons_self (k v : String) (l : List (String × String)) :
    List.lookup k ((k, v) :: l) = some v := by
  simp [List.lookup]

theorem lookup_cons_ne {k a : String} (hne : k ≠ a) (b : String)
    (l : List (String × String)) :
    List.lookup k ((a, b) :: l) = List.lookup k l := by
  rw [List.lookup_cons, beq_eq_false_iff_ne.mpr hne]

theorem lookup_mapInsert_self (k v : String) :
    ∀ l, (mapInsert k v l).lookup k = some v
  | [] => lookup_cons_self k v []
  | (k', v') :: rest => by
    by_cases h : k' = k
    · subst h
      rw [show mapInsert k' v ((k', v') :: rest) = (k', v) :: rest from by simp [mapInsert]]
      exact lookup_cons_self k' v rest
    · rw [show mapInsert k v ((k', v') :: rest) = (k', v') :: mapInsert k v rest from by
        simp [mapInsert, h]]
      rw [lookup_cons_ne (Ne.symm h) v' _]
      exact lookup_mapInsert_self k v rest

theorem lookup_mapInsert_ne (k v k' : String) (hne : k' ≠ k) :
    ∀ l, (mapInsert k v l).lookup k' = l.lookup k'
  | [] => by
    rw [show mapInsert k v [] = [(k, v)] from rfl, lookup_cons_ne hne v []]
  | (k'', v'') :: rest => by
    by_cases h : k'' = k
    · subst h
      rw [show mapInsert k'' v ((k'', v'') :: rest) = (k'', v) :: rest from by simp [mapInsert]]
      rw [lookup_cons_ne hne v rest, lookup_cons_ne hne v'' rest]
    · rw [show mapInsert k v ((k'', v'') :: rest) = (k'', v'') :: mapInsert k v rest from by
        simp [mapInsert, h]]
      by_cases h2 : k' = k''
      · subst h2
        rw [lookup_cons_self, lookup_cons_self]
      · rw [lookup_cons_ne h2, lookup_cons_ne h2]
        exact lookup_mapInsert_ne k v k' hne rest

theorem lookup_mapModifyOrInsert_self (k : String) (f : String → String) (v : String) :
    ∀ l, (mapModifyOrInsert k f v l).lookup k
      = some (match l.lookup k with | some cur => f cur | none => v)
  | [] => lookup_cons_self k v []
  | (k', v') :: rest => by
    by_cases h : k' = k
    · subst h
      rw [show mapModifyOrInsert k' f v ((k', v') :: rest) = (k', f v') :: rest from by
        simp [mapModifyOrInsert]]
      rw [lookup_cons_self, lookup_cons_self]
    · rw [show mapModifyOrInsert k f v ((k', v') :: rest)
          = (k', v') :: mapModifyOrInsert k f v rest from by simp [mapModifyOrInsert, h]]
      rw [lookup_cons_ne (Ne.symm h) v' _, lookup_cons_ne (Ne.symm h) v' rest]
      exact lookup_mapModifyOrInsert_self k f v rest

theorem mem_keysOf_mapInsert {x k v : String} :
    ∀ {l}, x ∈ keysOf (mapInsert k v l) ↔ x = k ∨ x ∈ keysOf l
  | [] => by simp [mapInsert, keysOf]
  | (k', v') :: rest => by
    by_cases h : k' = k
    · subst h
      simp [mapInsert, keysOf]
    · rw [show mapInsert k v ((k', v') :: rest) = (k', v') :: mapInsert k v rest from by
        simp [mapInsert, h]]
      simp only [keysOf, List.map_cons, List.mem_cons]
      rw [show (List.map Prod.fst (mapInsert k v rest) : List String)
          = keysOf (mapInsert k v rest) from rfl]
      rw [mem_keysOf_mapInsert (l := rest)]
      simp only [keysOf]
      tauto

theorem mem_keysOf_mapModifyOrInsert {x k : String} {f : String → String} {v : String} :
    ∀ {l}, x ∈ keysOf (mapModifyOrInsert k f v l) ↔ x = k ∨ x ∈ keysOf l
  | [] => by simp [mapModifyOrInsert, keysOf]
  | (k', v') :: rest => by
    by_cases h : k' = k
    · subst h
      simp [mapModifyOrInsert, keysOf]
    · rw [show mapModifyOrInsert k f v ((k', v') :: rest)
          = (k', v') :: mapModifyOrInsert k f v rest from by simp [mapModifyOrInsert, h]]
      simp only [keysOf, List.map_cons, List.mem_cons]
      rw [show (List.map Prod.fst (mapModifyOrInsert k f v rest) : List String)
          = keysOf (mapModifyOrInsert k f v rest) from rfl]
      rw [mem_keysOf_mapModifyOrInsert (l := rest)]
      simp only [keysOf]
      tauto

theorem nodup_keysOf_mapInsert (k v : String) :
    ∀ l, (keysOf l).Nodup → (keysOf (mapInsert k v l)).Nodup
  | [], _ => by simp [mapInsert, keysOf]
  | (k', v') :: rest, hnd => by
    have hnd' : k' ∉ keysOf rest ∧ (keysOf rest).Nodup := by
      simpa [keysOf] using hnd
    by_cases h : k' = k
    · subst h
      rw [show mapInsert k' v ((k', v') :: rest) = (k', v) :: rest from by simp [mapInsert]]
      simpa [keysOf] using hnd'
    · rw [show mapInsert k v ((k', v') :: rest) = (k', v') :: mapInsert k v rest from by
        simp [mapInsert, h]]
      simp only [keysOf, List.map_cons, List.nodup_cons]
      refine ⟨?_, nodup_keysOf_mapInsert k v rest hnd'.2⟩
      rw [show (List.map Prod.fst (mapInsert k v rest) : List String)
          = keysOf (mapInsert k v rest) from rfl, mem_keysOf_mapInsert]
      rintro (h' | h')
      · exact h h'
      · exact hnd'.1 (by simpa [keysOf] using h')

theorem nodup_keysOf_mapModifyOrInsert (k : String) (f : String → String) (v : String) :
    ∀ l, (keysOf l).Nodup → (keysOf (mapModifyOrInsert k f v l)).Nodup
  | [], _ => by simp [mapModifyOrInsert, keysOf]
  | (k', v') :: rest, hnd => by
    have hnd' : k' ∉ keysOf rest ∧ (keysOf rest).Nodup := by
      simpa [keysOf] using hnd
    by_cases h : k' = k
    · subst h
      rw [show mapModifyOrInsert k' f v ((k', v') :: rest) = (k', f v') :: rest from by
        simp [mapModifyOrInsert]]
      simpa [keysOf] using hnd'
    · rw [show mapModifyOrInsert k f v ((k', v') :: rest)
          = (k', v') :: mapModifyOrInsert k f v rest from by simp [mapModifyOrInsert, h]]
      simp only [keysOf, List.map_cons, List.nodup_cons]
      refine ⟨?_, nodup_keysOf_mapModifyOrInsert k f v rest hnd'.2⟩
      rw [show (List.map Prod.fst (mapModifyOrInsert k f v rest) : List String)
          = keysOf (mapModifyOrInsert k f v rest) from rfl, mem_keysOf_mapModifyOrInsert]
      rintro (h' | h')
      · exact h h'
      · exact hnd'.1 (by simpa [keysOf] using h')

theorem lookup_eq_none_of_not_mem_keysOf (k : String) :
    ∀ l : List (String × String), k ∉ keysOf l → l.lookup k = none
  | [], _ => rfl
  | (k', v') :: rest, h => by
    have h1 : k ≠ k' := fun he => h (by simp [keysOf, he])
    have h2 : k ∉ keysOf rest := fun hm => h (by
      simp only [keysOf, List.map_cons, List.mem_cons]
      exact .inr (by simpa [keysOf] using hm))
    rw [lookup_cons_ne h1 v' rest]
    exact lookup_eq_none_of_not_mem_keysOf k rest h2

theorem mem_of_lookup_eq_some {k v : String} :
    ∀ {l : List (String × String)}, l.lookup k = some v → (k, v) ∈ l
  | [], h => by simp [List.lookup] at h
  | (k', v') :: rest, h => by
    by_cases he : k = k'
    · subst he
      rw [lookup_cons_self] at h
      have hv : v' = v := Option.some_inj.mp h
      subst hv
      exact List.mem_cons_self _ _
    · rw [lookup_cons_ne he v' rest] at h
      exact List.mem_cons_of_mem _ (mem_of_lookup_eq_some h)

theorem perm_cons_eraseEntry {x : String × String} :
    ∀ {l : List (String × String)}, x ∈ l → l.Perm (x :: eraseEntry x l)
  | [], hmem => by simp at hmem
  | y :: rest, hmem => by
    by_cases hx : y = x
    · subst hx
      rw [show eraseEntry y (y :: rest) = rest from by simp [eraseEntry]]
    · rw [show eraseEntry x (y :: rest) = y :: eraseEntry x rest from by
        simp [eraseEntry, hx]]
      have hmem' : x ∈ rest := by
        rcases List.mem_cons.mp hmem with h | h
        · exact absurd h.symm hx
        · exact h
      exact ((perm_cons_eraseEntry hmem').cons y).trans (List.Perm.swap x y _)

theorem sublist_eraseEntry (x : String × String) :
    ∀ l : List (String × String), (eraseEntry x l).Sublist l
  | [] => List.Sublist.refl []
  | y :: rest => by
    by_cases hx : y = x
    · rw [show eraseEntry x (y :: rest) = rest from by simp [eraseEntry, hx]]
      exact List.sublist_cons_self y rest
    · rw [show eraseEntry x (y :: rest) = y :: eraseEntry x rest from by
        simp [eraseEntry, hx]]
      exact (sublist_eraseEntry x rest).cons₂ y

theorem lookup_eraseEntry_ne {k v k' : String} (hne : k' ≠ k) :
    ∀ l : List (String × String), (eraseEntry (k, v) l).lookup k' = l.lookup k'
  | [] => rfl
  | (a, b) :: rest => by
    by_cases hx : (a, b) = (k, v)
    · rw [show eraseEntry (k, v) ((a, b) :: rest) = rest from by simp [eraseEntry, hx]]
      have ha : a = k := congrArg Prod.fst hx
      subst ha
      rw [lookup_cons_ne hne b rest]
    · rw [show eraseEntry (k, v) ((a, b) :: rest) = (a, b) :: eraseEntry (k, v) rest from by
        simp [eraseEntry, hx]]
      by_cases h2 : k' = a
      · subst h2
        rw [lookup_cons_self, lookup_cons_self]
      · rw [lookup_cons_ne h2 b _, lookup_cons_ne h2 b rest]
        exact lookup_eraseEntry_ne hne rest

theorem lookup_eraseEntry_self {k v : String} :
    ∀ l : List (String × String), (keysOf l).Nodup → (k, v) ∈ l →
      (eraseEntry (k, v) l).lookup k = none
  | [], _, hmem => by simp at hmem
  | (a, b) :: rest, hnd, hmem => by
    have hnd' : a ∉ keysOf rest ∧ (keysOf rest).Nodup := by
      simpa [keysOf] using hnd
    by_cases hx : (a, b) = (k, v)
    · rw [show eraseEntry (k, v) ((a, b) :: rest) = rest from by simp [eraseEntry, hx]]
      have ha : a = k := congrArg Prod.fst hx
      subst ha
      exact lookup_eq_none_of_not_mem_keysOf _ rest hnd'.1
    · rw [show eraseEntry (k, v) ((a, b) :: rest) = (a, b) :: eraseEntry (k, v) rest from by
        simp [eraseEntry, hx]]
      have hmem' : (k, v) ∈ rest := by
        rcases List.mem_cons.mp hmem with h | h
        · exact absurd h.symm hx
        · exact h
      have hka : k ≠ a := by
        intro he
        subst he
        exact hnd'.1 (by simpa [keysOf] using List.mem_map_of_mem Prod.fst hmem')
      rw [lookup_cons_ne hka b _]
      exact lookup_eraseEntry_self rest hnd'.2 hmem'

theorem perm_of_lookup_eq :
    ∀ l1 l2 : List (String × String),
      (keysOf l1).Nodup → (keysOf l2).Nodup →
      (∀ k, l1.lookup k = l2.lookup k) → l1.Perm l2
  | [], l2, _, _, h => by
    cases l2 with
    | nil => exact .refl _
    | cons x t =>
      exfalso
      obtain ⟨a, b⟩ := x
      have := h a
      rw [lookup_cons_self] at this
      simp [List.lookup] at this
  | (k, v) :: t1, l2, hnd1, hnd2, h => by
    have hnd1' : k ∉ keysOf t1 ∧ (keysOf t1).Nodup := by
      simpa [keysOf] using hnd1
    have hk : l2.lookup k = some v := by
      rw [← h k, lookup_cons_self]
    have hmem : (k, v) ∈ l2 := mem_of_lookup_eq_some hk
    have hperm2 : l2.Perm ((k, v) :: eraseEntry (k, v) l2) := perm_cons_eraseEntry hmem
    refine (List.Perm.cons (k, v) (perm_of_lookup_eq t1 (eraseEntry (k, v) l2) ?_ ?_ ?_)).trans
      hperm2.symm
    · exact hnd1'.2
    · have hsub : (eraseEntry (k, v) l2).Sublist l2 := sublist_eraseEntry _ l2
      exact hnd2.sublist (hsub.map Prod.fst)
    · intro k'
      by_cases hk' : k' = k
      · subst hk'
        rw [lookup_eraseEntry_self l2 hnd2 hmem,
          lookup_eq_none_of_not_mem_keysOf _ t1 hnd1'.1]
      · rw [lookup_eraseEntry_ne hk' l2, ← h k', lookup_cons_ne hk' v t1]

/-! ## Option-setting calls only mapInsert vocabulary keys -/

theorem applyOpt_base_path (b : PathBuilder) (op : Opt) :
    (applyOpt b op).base_path = b.base_path := by
  cases op <;> rfl

theorem applyOpt_resource_type (b : PathBuilder) (op : Opt) :
    (applyOpt b op).resource_type = b.resource_type := by
  cases op <;> rfl

theorem applyOpt_id (b : PathBuilder) (op : Opt) : (applyOpt b op).id = b.id := by
  cases op <;> rfl

theorem applyOpts_base_path : ∀ (ops : List Opt) (b : PathBuilder),
    (applyOpts b ops).base_path = b.base_path
  | [], _ => rfl
  | op :: ops, b => by
    rw [show applyOpts b (op :: ops) = applyOpts (applyOpt b op) ops from rfl,
      applyOpts_base_path ops _, applyOpt_base_path]

theorem applyOpts_resource_type : ∀ (ops : List Opt) (b : PathBuilder),
    (applyOpts b ops).resource_type = b.resource_type
  | [], _ => rfl
  | op :: ops, b => by
    rw [show applyOpts b (op :: ops) = applyOpts (applyOpt b op) ops from rfl,
      applyOpts_resource_type ops _, applyOpt_resource_type]

theorem applyOpts_id : ∀ (ops : List Opt) (b : PathBuilder),
    (applyOpts b ops).id = b.id
  | [], _ => rfl
  | op :: ops, b => by
    rw [show applyOpts b (op :: ops) = applyOpts (applyOpt b op) ops from rfl,
      applyOpts_id ops _, applyOpt_id]

theorem applyOpt_inner_mapInsert (b : PathBuilder) (op : Opt) :
    ∃ k v, k ∈ pathVocab ∧ (applyOpt b op).inner = mapInsert k v b.inner := by
  cases op with
  | order_by f d => exact ⟨"orderby", _, by decide, rfl⟩
  | top n => exact ⟨"top", _, by decide, rfl⟩
  | skip n => exact ⟨"skip", _, by decide, rfl⟩
  | format f => exact ⟨"format", _, by decide, rfl⟩
  | inline_count v => exact ⟨"inlinecount", _, by decide, rfl⟩
  | filter f c v => exact ⟨"filter", _, by decide, rfl⟩

theorem applyOpts_keys : ∀ (ops : List Opt) (b : PathBuilder),
    (∀ k ∈ keysOf b.inner, k ∈ pathVocab) → (keysOf b.inner).Nodup →
    (∀ k ∈ keysOf (applyOpts b ops).inner, k ∈ pathVocab) ∧
      (keysOf (applyOpts b ops).inner).Nodup
  | [], _, hv, hnd => ⟨hv, hnd⟩
  | op :: ops, b, hv, hnd => by
    obtain ⟨k, v, hkv, hinner⟩ := applyOpt_inner_mapInsert b op
    rw [show applyOpts b (op :: ops) = applyOpts (applyOpt b op) ops from rfl]
    refine applyOpts_keys ops (applyOpt b op) ?_ ?_
    · intro k' hk'
      rw [hinner, mem_keysOf_mapInsert] at hk'
      rcases hk' with h | h
      · exact h ▸ hkv
      · exact hv k' h
    · rw [hinner]
      exact nodup_keysOf_mapInsert k v _ hnd

theorem applyFOpt_inner_mapInsert (f : Filter) (op : FOpt) :
    ∃ k v, k ∈ filterVocab ∧ (applyFOpt f op).inner = mapInsert k v f.inner := by
  cases op with
  | order_by fd o => exact ⟨"orderby", _, by decide, rfl⟩
  | top n => exact ⟨"top", _, by decide, rfl⟩
  | skip n => exact ⟨"skip", _, by decide, rfl⟩
  | inline_count v => exact ⟨"inlinecount", _, by decide, rfl⟩
  | filter fd c v => exact ⟨"filter", _, by decide, rfl⟩

theorem applyFOpts_keys : ∀ (ops : List FOpt) (f : Filter),
    (∀ k ∈ keysOf f.inner, k ∈ filterVocab) → (keysOf f.inner).Nodup →
    (∀ k ∈ keysOf (applyFOpts f ops).inner, k ∈ filterVocab) ∧
      (keysOf (applyFOpts f ops).inner).Nodup
  | [], _, hv, hnd => ⟨hv, hnd⟩
  | op :: ops, f, hv, hnd => by
    obtain ⟨k, v, hkv, hinner⟩ := applyFOpt_inner_mapInsert f op
    rw [show applyFOpts f (op :: ops) = applyFOpts (applyFOpt f op) ops from rfl]
    refine applyFOpts_keys ops (applyFOpt f op) ?_ ?_
    · intro k' hk'
      rw [hinner, mem_keysOf_mapInsert] at hk'
      rcases hk' with h | h
      · exact h ▸ hkv
      · exact hv k' h
    · rw [hinner]
      exact nodup_keysOf_mapInsert k v _ hnd

/-! ## The vocabulary keys serialize in key order -/

theorem pathVocab_encode_fix : ∀ k ∈ pathVocab, urlencoding.encode k = k := by decide

theorem pathVocab_diverges : ∀ k1 ∈ pathVocab, ∀ k2 ∈ pathVocab, k1 ≠ k2 →
    divergesL ("$" ++ k1 ++ "=").data ("$" ++ k2 ++ "=").data = true := by decide

theorem pathVocab_order : ∀ k1 ∈ pathVocab, ∀ k2 ∈ pathVocab,
    charListLt ("$" ++ k1 ++ "=").data ("$" ++ k2 ++ "=").data
      = charListLt k1.data k2.data := by decide

theorem fmtEntry_lt_of_key_lt {k1 v1 k2 v2 : String}
    (h1 : k1 ∈ pathVocab) (h2 : k2 ∈ pathVocab) (hlt : k1 < k2) :
    fmtEntry (k1, v1) < fmtEntry (k2, v2) := by
  have hne : k1 ≠ k2 := ne_of_lt hlt
  have hdiv := pathVocab_diverges k1 h1 k2 h2 hne
  have hord := pathVocab_order k1 h1 k2 h2
  have d1 : (fmtEntry (k1, v1)).data = ("$" ++ k1 ++ "=").data ++ v1.data := by
    simp [fmtEntry, String.data_append, pathVocab_encode_fix k1 h1, List.append_assoc]
  have d2 : (fmtEntry (k2, v2)).data = ("$" ++ k2 ++ "=").data ++ v2.data := by
    simp [fmtEntry, String.data_append, pathVocab_encode_fix k2 h2, List.append_assoc]
  rw [String.lt_iff_toList_lt]
  show List.Lex (· < ·) (fmtEntry (k1, v1)).data (fmtEntry (k2, v2)).data
  rw [d1, d2, lex_append_iff_of_divergesL _ _ hdiv]
  rw [← charListLt_iff, hord, charListLt_iff]
  exact String.lt_iff_toList_lt.mp hlt

/-! ## Order instances for the pair comparison of the legacy Filter -/

theorem pairLeB_total_thm (p q : String × String) :
    pairLeB p q = true ∨ pairLeB q p = true := by
  by_cases h : p.1 = q.1
  · simp only [pairLeB, if_pos h, if_pos h.symm]
    rcases le_total p.2 q.2 with hle | hle
    · exact .inl ((strLeB_iff _ _).mpr hle)
    · exact .inr ((strLeB_iff _ _).mpr hle)
  · simp only [pairLeB, if_neg h, if_neg (Ne.symm h)]
    rcases le_total p.1 q.1 with hle | hle
    · exact .inl ((strLeB_iff _ _).mpr hle)
    · exact .inr ((strLeB_iff _ _).mpr hle)

theorem pairLeB_trans_thm (p q r : String × String)
    (h1 : pairLeB p q = true) (h2 : pairLeB q r = true) : pairLeB p r = true := by
  by_cases hpq : p.1 = q.1
  · by_cases hqr : q.1 = r.1
    · rw [pairLeB, if_pos hpq] at h1
      rw [pairLeB, if_pos hqr] at h2
      rw [pairLeB, if_pos (hpq.trans hqr)]
      rw [strLeB_iff] at h1 h2 ⊢
      exact le_trans h1 h2
    · have hpr : p.1 ≠ r.1 := fun he => hqr (hpq.symm.trans he)
      rw [pairLeB, if_neg hqr] at h2
      rw [pairLeB, if_neg hpr, hpq]
      exact h2
  · by_cases hqr : q.1 = r.1
    · have hpr : p.1 ≠ r.1 := fun he => hpq (he.trans hqr.symm)
      rw [pairLeB, if_neg hpq] at h1
      rw [pairLeB, if_neg hpr, ← hqr]
      exact h1
    · rw [pairLeB, if_neg hpq, strLeB_iff] at h1
      rw [pairLeB, if_neg hqr, strLeB_iff] at h2
      have hlt : p.1 < r.1 := lt_of_lt_of_le (lt_of_le_of_ne h1 hpq) h2
      rw [pairLeB, if_neg (ne_of_lt hlt), strLeB_iff]
      exact le_of_lt hlt

theorem pairLeB_antisymm_thm (p q : String × String)
    (h1 : pairLeB p q = true) (h2 : pairLeB q p = true) : p = q := by
  by_cases h : p.1 = q.1
  · rw [pairLeB, if_pos h, strLeB_iff] at h1
    rw [pairLeB, if_pos h.symm, strLeB_iff] at h2
    exact Prod.ext h (le_antisymm h1 h2)
  · rw [pairLeB, if_neg h, strLeB_iff] at h1
    rw [pairLeB, if_neg (Ne.symm h), strLeB_iff] at h2
    exact absurd (le_antisymm h1 h2) h

instance : IsTotal (String × String) (fun p q => pairLeB p q = true) :=
  ⟨pairLeB_total_thm⟩

instance : IsTrans (String × String) (fun p q => pairLeB p q = true) :=
  ⟨pairLeB_trans_thm⟩

instance : IsAntisymm (String × String) (fun p q => pairLeB p q = true) :=
  ⟨pairLeB_antisymm_thm⟩

theorem mapInsert_mapInsert_same (k v1 v2 : String) :
    ∀ l, mapInsert k v2 (mapInsert k v1 l) = mapInsert k v2 l
  | [] => by simp [mapInsert]
  | (k', v') :: rest => by
    by_cases h : k' = k
    · subst h
      rw [show mapInsert k' v1 ((k', v') :: rest) = (k', v1) :: rest from by simp [mapInsert]]
      simp [mapInsert]
    · rw [show mapInsert k v1 ((k', v') :: rest) = (k', v') :: mapInsert k v1 rest from by
        simp [mapInsert, h]]
      rw [show mapInsert k v2 ((k', v') :: mapInsert k v1 rest)
          = (k', v') :: mapInsert k v2 (mapInsert k v1 rest) from by simp [mapInsert, h]]
      rw [show mapInsert k v2 ((k', v') :: rest) = (k', v') :: mapInsert k v2 rest from by
        simp [mapInsert, h]]
      rw [mapInsert_mapInsert_same k v1 v2 rest]

/-! ## The tests of the repository, checked against the embedding -/

example :
    ((((PathBuilder.new "test_resource").top 2).skip 3).order_by
        "date" Direction.Ascending).build
      = "/test_resource?$orderby=date%20asc&$skip=3&$top=2" := by decide

example :
    ((((PathBuilder.new "test_resource").setId 100).expand ["DoThing", "What"]).expand
        ["Hello"]).build
      = "/test_resource(100)?$expand=DoThing,What,Hello" := by decide

example :
    (((Filter.default.top 2).skip 3).order_by "date" none).to_query
      = "$orderby=date%20asc&$skip=3&$top=2" := by decide

/-! ## The claims -/

/-- C4: every expand call appends its comma-joined, individually
percent-encoded field list to an existing expand value, separated by a
comma (or inserts it when no expand value exists), preserving call
order; expand of A,B then C serializes as expand=A,B,C while the
reverse call order serializes as expand=C,A,B. -/
theorem c4_expand_accumulation :
    (∀ (b : PathBuilder) (fs : List String),
        (b.expand fs).inner.lookup "expand"
          = some (match b.inner.lookup "expand" with
              | some cur => cur ++ "," ++ String.intercalate "," (fs.map urlencoding.encode)
              | none => String.intercalate "," (fs.map urlencoding.encode))) ∧
    ((((PathBuilder.new "r").expand ["A", "B"]).expand ["C"]).buildQuery
      = "$expand=A,B,C") ∧
    ((((PathBuilder.new "r").expand ["C"]).expand ["A", "B"]).buildQuery
      = "$expand=C,A,B") := by
  refine ⟨?_, by decide, by decide⟩
  intro b fs
  exact lookup_mapModifyOrInsert_self "expand" _ _ b.inner

/-- C5: at most one filter expression is stored at a time: a second
filter call replaces the first, in PathBuilder and in the legacy Filter;
after filter id Equal 24 followed by filter name NotEqual x, the
serialized query is exactly the one filter entry name%20ne%20x. -/
theorem c5_filter_replacement :
    (∀ (b : PathBuilder) (f1 : String) (c1 : Comparison) (v1 : String)
        (f2 : String) (c2 : Comparison) (v2 : String),
        ((b.filter f1 c1 v1).filter f2 c2 v2).inner = (b.filter f2 c2 v2).inner) ∧
    (∀ (f : Filter) (f1 : String) (c1 : Comparison) (v1 : String)
        (f2 : String) (c2 : Comparison) (v2 : String),
        ((f.filter f1 c1 v1).filter f2 c2 v2).inner = (f.filter f2 c2 v2).inner) ∧
    ((((ListRequest.new "Dokument").filter "id" Comparison.Equal "24").filter
        "name" Comparison.NotEqual "x").builder.buildQuery = "$filter=name%20ne%20x") ∧
    ((((ListRequest.new "Dokument").filter "id" Comparison.Equal "24").filter
        "name" Comparison.NotEqual "x").builder.build
      = "/Dokument?$filter=name%20ne%20x") := by
  refine ⟨?_, ?_, by decide, by decide⟩
  · intro b f1 c1 v1 f2 c2 v2
    exact mapInsert_mapInsert_same "filter" _ _ b.inner
  · intro f f1 c1 v1 f2 c2 v2
    have h := mapInsert_mapInsert_same "filter"
      (f1 ++ " " ++ c1.toStr ++ " " ++ v1) (f2 ++ " " ++ c2.toStr ++ " " ++ v2) f.inner
    exact h

/-- C9: build produces base path, slash, percent-encoded resource type,
the id suffix — the parenthesised percent-encoded id exactly when an id
is present and the empty string otherwise — then a question mark and the
canonical query; with id 100 on resource test_resource and no options
the result is exactly the string with a trailing question mark and empty
query. -/
theorem c9_build_shape :
    (∀ (bp rt : String) (i : Nat) (inner : List (String × String)),
        (PathBuilder.mk bp rt (some i) inner).build
          = bp ++ "/" ++ urlencoding.encode rt
              ++ ("(" ++ urlencoding.encode (toString i) ++ ")")
              ++ "?" ++ (PathBuilder.mk bp rt (some i) inner).buildQuery) ∧
    (∀ (bp rt : String) (inner : List (String × String)),
        (PathBuilder.mk bp rt none inner).build
          = bp ++ "/" ++ urlencoding.encode rt ++ "" ++ "?"
              ++ (PathBuilder.mk bp rt none inner).buildQuery) ∧
    ((PathBuilder.new "test_resource").setId 100).build = "/test_resource(100)?" := by
  refine ⟨?_, ?_, by decide⟩
  · intro bp rt i inner
    rfl
  · intro bp rt inner
    rfl

/-- C10: calling expand with an empty field list is not a no-op: with no
prior expand value it inserts the expand key with the empty value, so
the query contains the bare entry; with an existing expand value it
appends a comma followed by nothing, leaving a trailing comma. -/
theorem c10_empty_expand_not_noop :
    (∀ b : PathBuilder, (b.expand []).inner ≠ b.inner) ∧
    (((PathBuilder.new "r").expand []).buildQuery = "$expand=") ∧
    ((((PathBuilder.new "r").expand ["A"]).expand []).buildQuery = "$expand=A,") := by
  refine ⟨?_, by decide, by decide⟩
  intro b heq
  have h2 : (b.expand ([] : List String)).inner.lookup "expand"
      = some (match b.inner.lookup "expand" with
          | some cur => cur ++ "," ++ String.intercalate "," (([] : List String).map urlencoding.encode)
          | none => String.intercalate "," (([] : List String).map urlencoding.encode)) :=
    lookup_mapModifyOrInsert_self "expand" _ _ b.inner
  rw [heq] at h2
  cases hcase : b.inner.lookup "expand" with
  | none =>
    rw [hcase] at h2
    exact Option.noConfusion h2
  | some cur =>
    rw [hcase] at h2
    have hcur : cur = cur ++ "," ++ String.intercalate ","
        (([] : List String).map urlencoding.encode) := Option.some_inj.mp h2
    have hlen := congrArg String.length hcur
    rw [String.length_append, String.length_append] at hlen
    have hone : ("," : String).length = 1 := rfl
    rw [hone] at hlen
    omega

/-- C8 fails on the legacy Filter of src/filter.rs: Filter::order_by
stores the raw, unencoded value — the stored string differs from its
percent-encoded form — and Filter::to_query percent-encodes the stored
value at serialization time, emitting a string different from the stored
one. -/
theorem c8_counterexample :
    (Filter.default.order_by "date" none).inner.lookup "orderby" = some "date asc" ∧
    urlencoding.encode "date asc" = "date%20asc" ∧
    ("date asc" : String) ≠ urlencoding.encode "date asc" ∧
    (Filter.default.order_by "date" none).to_query = "$orderby=date%20asc" :=
  ⟨by decide, by decide, by decide, by decide⟩

/-- C8 amended: in PathBuilder (src/path.rs) every option-setting
operation stores the percent-encoding of its logical value (format
stores a literal that coincides with its own encoding), and build
percent-encodes only the keys, emitting each stored value verbatim — so
a value with a space is encoded exactly once.  The legacy Filter
(src/filter.rs) instead stores values raw and to_query percent-encodes
key and value at serialization time; its output is also singly
encoded. -/
theorem c8_value_encoding_amended :
    (∀ (b : PathBuilder) (field : String) (dir : Direction),
        (b.order_by field dir).inner.lookup "orderby"
          = some (urlencoding.encode (field ++ " " ++ dir.toStr))) ∧
    (∀ (b : PathBuilder) (n : Nat),
        (b.top n).inner.lookup "top" = some (urlencoding.encode (toString n))) ∧
    (∀ (b : PathBuilder) (n : Nat),
        (b.skip n).inner.lookup "skip" = some (urlencoding.encode (toString n))) ∧
    (∀ (b : PathBuilder) (f : Format),
        (b.format f).inner.lookup "format" = some f.toStr ∧
          f.toStr = urlencoding.encode f.toStr) ∧
    (∀ (b : PathBuilder) (v : InlineCount),
        (b.inline_count v).inner.lookup "inlinecount"
          = some (urlencoding.encode v.toStr)) ∧
    (∀ (b : PathBuilder) (fd : String) (c : Comparison) (v : String),
        (b.filter fd c v).inner.lookup "filter"
          = some (urlencoding.encode (fd ++ " " ++ c.toStr ++ " " ++ v))) ∧
    (∀ kv : String × String,
        fmtEntry kv = "$" ++ urlencoding.encode kv.1 ++ "=" ++ kv.2) ∧
    (((PathBuilder.new "r").order_by "a b" Direction.Ascending).buildQuery
      = "$orderby=a%20b%20asc") ∧
    (∀ (f : Filter) (field : String),
        (f.order_by field none).inner.lookup "orderby"
          = some (field ++ " " ++ Order.Ascending.toStr)) ∧
    ((Filter.default.order_by "a b" none).to_query = "$orderby=a%20b%20asc") := by
  refine ⟨?_, ?_, ?_, ?_, ?_, ?_, ?_, by decide, ?_, by decide⟩
  · intro b field dir
    exact lookup_mapInsert_self _ _ b.inner
  · intro b n
    exact lookup_mapInsert_self _ _ b.inner
  · intro b n
    exact lookup_mapInsert_self _ _ b.inner
  · intro b f
    exact ⟨lookup_mapInsert_self _ _ b.inner, by cases f <;> decide⟩
  · intro b v
    exact lookup_mapInsert_self _ _ b.inner
  · intro b fd c v
    exact lookup_mapInsert_self _ _ b.inner
  · intro kv
    rfl
  · intro f field
    exact lookup_mapInsert_self _ _ f.inner

/-- C1: for every query option set built by any two orders of
option-setting calls (excluding expand) that produce the same logical
option values — the same stored value under every key of the closed
vocabulary — the serialized output of PathBuilder::build, and likewise of
the legacy Filter::to_query, is byte-identical between the two orders. -/
theorem c1_order_independent_serialization :
    (∀ (bp rt : String) (ops1 ops2 : List Opt),
        (∀ k ∈ pathVocab,
          (applyOpts (PathBuilder.new_with_base bp rt) ops1).inner.lookup k
            = (applyOpts (PathBuilder.new_with_base bp rt) ops2).inner.lookup k) →
        (applyOpts (PathBuilder.new_with_base bp rt) ops1).build
          = (applyOpts (PathBuilder.new_with_base bp rt) ops2).build) ∧
    (∀ fops1 fops2 : List FOpt,
        (∀ k ∈ filterVocab,
          (applyFOpts Filter.default fops1).inner.lookup k
            = (applyFOpts Filter.default fops2).inner.lookup k) →
        (applyFOpts Filter.default fops1).to_query
          = (applyFOpts Filter.default fops2).to_query) := by
  constructor
  · intro bp rt ops1 ops2 hlook
    have hbase_v : ∀ k ∈ keysOf (PathBuilder.new_with_base bp rt).inner, k ∈ pathVocab := by
      intro k hk
      simp [PathBuilder.new_with_base, keysOf] at hk
    have hbase_nd : (keysOf (PathBuilder.new_with_base bp rt).inner).Nodup := by
      simp [PathBuilder.new_with_base, keysOf]
    obtain ⟨hv1, hnd1⟩ := applyOpts_keys ops1 _ hbase_v hbase_nd
    obtain ⟨hv2, hnd2⟩ := applyOpts_keys ops2 _ hbase_v hbase_nd
    have hlookAll : ∀ k,
        (applyOpts (PathBuilder.new_with_base bp rt) ops1).inner.lookup k
          = (applyOpts (PathBuilder.new_with_base bp rt) ops2).inner.lookup k := by
      intro k
      by_cases hk : k ∈ pathVocab
      · exact hlook k hk
      · rw [lookup_eq_none_of_not_mem_keysOf k _ (fun hm => hk (hv1 k hm)),
          lookup_eq_none_of_not_mem_keysOf k _ (fun hm => hk (hv2 k hm))]
    have hperm := perm_of_lookup_eq _ _ hnd1 hnd2 hlookAll
    have hq : sortStrings
          ((applyOpts (PathBuilder.new_with_base bp rt) ops1).inner.map fmtEntry)
        = sortStrings
          ((applyOpts (PathBuilder.new_with_base bp rt) ops2).inner.map fmtEntry) := by
      simp only [sortStrings]
      exact List.eq_of_perm_of_sorted
        ((List.perm_insertionSort _ _).trans
          ((hperm.map fmtEntry).trans (List.perm_insertionSort _ _).symm))
        (List.sorted_insertionSort _ _) (List.sorted_insertionSort _ _)
    simp only [PathBuilder.build, PathBuilder.buildQuery]
    rw [applyOpts_base_path ops1, applyOpts_base_path ops2, applyOpts_resource_type ops1,
      applyOpts_resource_type ops2, applyOpts_id ops1, applyOpts_id ops2, hq]
  · intro fops1 fops2 hlook
    have hbase_v : ∀ k ∈ keysOf Filter.default.inner, k ∈ filterVocab := by
      intro k hk
      simp [Filter.default, keysOf] at hk
    have hbase_nd : (keysOf Filter.default.inner).Nodup := by
      simp [Filter.default, keysOf]
    obtain ⟨hv1, hnd1⟩ := applyFOpts_keys fops1 _ hbase_v hbase_nd
    obtain ⟨hv2, hnd2⟩ := applyFOpts_keys fops2 _ hbase_v hbase_nd
    have hlookAll : ∀ k,
        (applyFOpts Filter.default fops1).inner.lookup k
          = (applyFOpts Filter.default fops2).inner.lookup k := by
      intro k
      by_cases hk : k ∈ filterVocab
      · exact hlook k hk
      · rw [lookup_eq_none_of_not_mem_keysOf k _ (fun hm => hk (hv1 k hm)),
          lookup_eq_none_of_not_mem_keysOf k _ (fun hm => hk (hv2 k hm))]
    have hperm := perm_of_lookup_eq _ _ hnd1 hnd2 hlookAll
    have hsort : (applyFOpts Filter.default fops1).sortedInner
        = (applyFOpts Filter.default fops2).sortedInner := by
      simp only [Filter.sortedInner]
      exact List.eq_of_perm_of_sorted
        ((List.perm_insertionSort _ _).trans
          (hperm.trans (List.perm_insertionSort _ _).symm))
        (List.sorted_insertionSort _ _) (List.sorted_insertionSort _ _)
    simp only [Filter.to_query]
    rw [hsort]

/-- Witness for C1: top then skip and skip then top store the same
option values and build the same string, for PathBuilder and for the
legacy Filter. -/
theorem c1_witness :
    (applyOpts (PathBuilder.new_with_base "" "r") [Opt.top 2, Opt.skip 3]).build
      = (applyOpts (PathBuilder.new_with_base "" "r") [Opt.skip 3, Opt.top 2]).build ∧
    (applyFOpts Filter.default [FOpt.top 2, FOpt.skip 3]).to_query
      = (applyFOpts Filter.default [FOpt.skip 3, FOpt.top 2]).to_query :=
  ⟨c1_order_independent_serialization.1 "" "r" _ _ (by decide),
   c1_order_independent_serialization.2 _ _ (by decide)⟩

/-- C2: for every option set with at least two (distinct) keys, the
sequence of keys of the serialized query is strictly ascending in
lexicographic order: the sorted query of build is the formatted entries
taken in an order whose key sequence is strictly sorted, and the same
holds for the pair-sorted output of the legacy Filter::to_query. -/
theorem c2_sorted_key_invariant :
    (∀ b : PathBuilder,
        (∀ k ∈ keysOf b.inner, k ∈ pathVocab) → (keysOf b.inner).Nodup →
        2 ≤ b.inner.length →
        b.buildQuery = String.intercalate "&" ((sortedEntries b).map fmtEntry) ∧
          List.Sorted (· < ·) ((sortedEntries b).map Prod.fst)) ∧
    (∀ f : Filter, (keysOf f.inner).Nodup → 2 ≤ f.inner.length →
        f.to_query = String.intercalate "&" (f.sortedInner.map (fun kv =>
          "$" ++ urlencoding.encode kv.1 ++ "=" ++ urlencoding.encode kv.2)) ∧
          List.Sorted (· < ·) (f.sortedInner.map Prod.fst)) := by
  constructor
  · intro b hv hnd _hlen
    constructor
    · simp only [PathBuilder.buildQuery]
      rw [sortStrings_map_fmt b.inner]
      rfl
    · have hs : List.Sorted (fun p q => fmtLeB p q = true) (sortedEntries b) :=
        List.sorted_insertionSort _ _
      have hperm : (sortedEntries b).Perm b.inner := List.perm_insertionSort _ _
      have hne : List.Pairwise (fun p q : String × String => p.1 ≠ q.1) (sortedEntries b) := by
        have h0 : List.Pairwise (fun p q : String × String => p.1 ≠ q.1) b.inner := by
          simp only [keysOf] at hnd
          exact List.pairwise_map.mp hnd
        exact (List.Perm.pairwise_iff (fun h => Ne.symm h) hperm).mpr h0
      have hkey : List.Pairwise (fun p q : String × String => p.1 < q.1) (sortedEntries b) := by
        refine List.Pairwise.imp_of_mem ?_ (hs.and hne)
        intro p q hp hq hpq
        obtain ⟨hle, hne'⟩ := hpq
        have hp' : p ∈ b.inner := hperm.mem_iff.mp hp
        have hq' : q ∈ b.inner := hperm.mem_iff.mp hq
        have hpv : p.1 ∈ pathVocab := hv p.1 (List.mem_map_of_mem Prod.fst hp')
        have hqv : q.1 ∈ pathVocab := hv q.1 (List.mem_map_of_mem Prod.fst hq')
        rcases lt_or_gt_of_ne hne' with h | h
        · exact h
        · exfalso
          have hlt : fmtEntry q < fmtEntry p := fmtEntry_lt_of_key_lt hqv hpv h
          have hle' : fmtEntry p ≤ fmtEntry q := (strLeB_iff _ _).mp hle
          exact absurd hlt (not_lt.mpr hle')
      exact List.pairwise_map.mpr hkey
  · intro f hnd _hlen
    constructor
    · rfl
    · have hs : List.Sorted (fun p q => pairLeB p q = true) f.sortedInner :=
        List.sorted_insertionSort _ _
      have hperm : f.sortedInner.Perm f.inner := List.perm_insertionSort _ _
      have hne : List.Pairwise (fun p q : String × String => p.1 ≠ q.1) f.sortedInner := by
        have h0 : List.Pairwise (fun p q : String × String => p.1 ≠ q.1) f.inner := by
          simp only [keysOf] at hnd
          exact List.pairwise_map.mp hnd
        exact (List.Perm.pairwise_iff (fun h => Ne.symm h) hperm).mpr h0
      have hkey : List.Pairwise (fun p q : String × String => p.1 < q.1) f.sortedInner := by
        refine List.Pairwise.imp_of_mem ?_ (hs.and hne)
        intro p q _ _ hpq
        obtain ⟨hle, hne'⟩ := hpq
        rw [pairLeB, if_neg hne', strLeB_iff] at hle
        exact lt_of_le_of_ne hle hne'
      exact List.pairwise_map.mpr hkey

/-- Witness for C2 at a two-key option set on both implementations. -/
theorem c2_witness :
    ((((PathBuilder.new "r").top 2).skip 3).buildQuery
        = String.intercalate "&"
          ((sortedEntries (((PathBuilder.new "r").top 2).skip 3)).map fmtEntry) ∧
      List.Sorted (· < ·)
        ((sortedEntries (((PathBuilder.new "r").top 2).skip 3)).map Prod.fst)) ∧
    ((Filter.default.top 2).skip 3).to_query
        = String.intercalate "&" (((Filter.default.top 2).skip 3).sortedInner.map (fun kv =>
          "$" ++ urlencoding.encode kv.1 ++ "=" ++ urlencoding.encode kv.2)) ∧
      List.Sorted (· < ·) (((Filter.default.top 2).skip 3).sortedInner.map Prod.fst) :=
  ⟨c2_sorted_key_invariant.1 _ (by decide) (by decide) (by decide),
   c2_sorted_key_invariant.2 _ (by decide) (by decide)⟩

/-! ## UTF-8: decoding inverts encoding -/

theorem utf8Aux_ascii (b : Nat) (bs : List Nat) (h : b < 0x80) :
    utf8Aux 0 0 0 (b :: bs) = (utf8Aux 0 0 0 bs).map (fun cs => Char.ofNat b :: cs) := by
  show (if b < 0x80 then (utf8Aux 0 0 0 bs).map (fun cs => Char.ofNat b :: cs)
    else if b < 0xC0 then none
    else if b < 0xE0 then utf8Aux 1 (b - 0xC0) 0x80 bs
    else if b < 0xF0 then utf8Aux 2 (b - 0xE0) 0x800 bs
    else if b < 0xF8 then utf8Aux 3 (b - 0xF0) 0x10000 bs
    else none) = _
  rw [if_pos h]

theorem utf8Aux_lead2 (b : Nat) (bs : List Nat)
    (h1 : ¬ b < 0x80) (h2 : ¬ b < 0xC0) (h3 : b < 0xE0) :
    utf8Aux 0 0 0 (b :: bs) = utf8Aux 1 (b - 0xC0) 0x80 bs := by
  show (if b < 0x80 then (utf8Aux 0 0 0 bs).map (fun cs => Char.ofNat b :: cs)
    else if b < 0xC0 then none
    else if b < 0xE0 then utf8Aux 1 (b - 0xC0) 0x80 bs
    else if b < 0xF0 then utf8Aux 2 (b - 0xE0) 0x800 bs
    else if b < 0xF8 then utf8Aux 3 (b - 0xF0) 0x10000 bs
    else none) = _
  rw [if_neg h1, if_neg h2, if_pos h3]

theorem utf8Aux_lead3 (b : Nat) (bs : List Nat)
    (h1 : ¬ b < 0x80) (h2 : ¬ b < 0xC0) (h3 : ¬ b < 0xE0) (h4 : b < 0xF0) :
    utf8Aux 0 0 0 (b :: bs) = utf8Aux 2 (b - 0xE0) 0x800 bs := by
  show (if b < 0x80 then (utf8Aux 0 0 0 bs).map (fun cs => Char.ofNat b :: cs)
    else if b < 0xC0 then none
    else if b < 0xE0 then utf8Aux 1 (b - 0xC0) 0x80 bs
    else if b < 0xF0 then utf8Aux 2 (b - 0xE0) 0x800 bs
    else if b < 0xF8 then utf8Aux 3 (b - 0xF0) 0x10000 bs
    else none) = _
  rw [if_neg h1, if_neg h2, if_neg h3, if_pos h4]

theorem utf8Aux_lead4 (b : Nat) (bs : List Nat)
    (h1 : ¬ b < 0x80) (h2 : ¬ b < 0xC0) (h3 : ¬ b < 0xE0) (h4 : ¬ b < 0xF0)
    (h5 : b < 0xF8) :
    utf8Aux 0 0 0 (b :: bs) = utf8Aux 3 (b - 0xF0) 0x10000 bs := by
  show (if b < 0x80 then (utf8Aux 0 0 0 bs).map (fun cs => Char.ofNat b :: cs)
    else if b < 0xC0 then none
    else if b < 0xE0 then utf8Aux 1 (b - 0xC0) 0x80 bs
    else if b < 0xF0 then utf8Aux 2 (b - 0xE0) 0x800 bs
    else if b < 0xF8 then utf8Aux 3 (b - 0xF0) 0x10000 bs
    else none) = _
  rw [if_neg h1, if_neg h2, if_neg h3, if_neg h4, if_pos h5]

theorem utf8Aux_step2 (acc lo b : Nat) (bs : List Nat) (hb : 0x80 ≤ b ∧ b < 0xC0) :
    utf8Aux 2 acc lo (b :: bs) = utf8Aux 1 (acc * 0x40 + (b - 0x80)) lo bs := by
  show (if 0x80 ≤ b ∧ b < 0xC0 then utf8Aux (0+1) (acc * 0x40 + (b - 0x80)) lo bs
    else none) = _
  rw [if_pos hb]

theorem utf8Aux_step3 (acc lo b : Nat) (bs : List Nat) (hb : 0x80 ≤ b ∧ b < 0xC0) :
    utf8Aux 3 acc lo (b :: bs) = utf8Aux 2 (acc * 0x40 + (b - 0x80)) lo bs := by
  show (if 0x80 ≤ b ∧ b < 0xC0 then utf8Aux (1+1) (acc * 0x40 + (b - 0x80)) lo bs
    else none) = _
  rw [if_pos hb]

theorem utf8Aux_fin (acc lo b : Nat) (bs : List Nat) (hb : 0x80 ≤ b ∧ b < 0xC0)
    (hval : lo ≤ acc * 0x40 + (b - 0x80) ∧
      ¬ (0xD800 ≤ acc * 0x40 + (b - 0x80) ∧ acc * 0x40 + (b - 0x80) < 0xE000) ∧
      acc * 0x40 + (b - 0x80) < 0x110000) :
    utf8Aux 1 acc lo (b :: bs)
      = (utf8Aux 0 0 0 bs).map (fun cs => Char.ofNat (acc * 0x40 + (b - 0x80)) :: cs) := by
  show (if 0x80 ≤ b ∧ b < 0xC0 then
      if lo ≤ acc * 0x40 + (b - 0x80) ∧
          ¬ (0xD800 ≤ acc * 0x40 + (b - 0x80) ∧ acc * 0x40 + (b - 0x80) < 0xE000) ∧
          acc * 0x40 + (b - 0x80) < 0x110000 then
        (utf8Aux 0 0 0 bs).map (fun cs => Char.ofNat (acc * 0x40 + (b - 0x80)) :: cs)
      else none
    else none) = _
  rw [if_pos hb, if_pos hval]

theorem utf8Decode_one (b : Nat) (bs : List Nat) (h : b < 0x80) :
    utf8Decode (b :: bs) = (utf8Decode bs).map (fun cs => Char.ofNat b :: cs) := by
  simp only [utf8Decode]
  exact utf8Aux_ascii b bs h

theorem utf8Decode_two (b1 b2 : Nat) (bs : List Nat)
    (h1 : 0xC0 ≤ b1) (h2 : b1 < 0xE0) (h3 : 0x80 ≤ b2) (h4 : b2 < 0xC0)
    (h5 : 0x80 ≤ (b1 - 0xC0) * 0x40 + (b2 - 0x80)) :
    utf8Decode (b1 :: b2 :: bs)
      = (utf8Decode bs).map (fun cs =>
          Char.ofNat ((b1 - 0xC0) * 0x40 + (b2 - 0x80)) :: cs) := by
  simp only [utf8Decode]
  rw [utf8Aux_lead2 b1 (b2 :: bs) (by omega) (by omega) h2]
  rw [utf8Aux_fin _ _ _ _ ⟨h3, h4⟩ ⟨h5, by omega, by omega⟩]

theorem utf8Decode_three (b1 b2 b3 : Nat) (bs : List Nat)
    (h1 : 0xE0 ≤ b1) (h2 : b1 < 0xF0) (h3 : 0x80 ≤ b2) (h4 : b2 < 0xC0)
    (h5 : 0x80 ≤ b3) (h6 : b3 < 0xC0)
    (h7 : 0x800 ≤ (b1 - 0xE0) * 0x1000 + (b2 - 0x80) * 0x40 + (b3 - 0x80))
    (h8 : ¬ (0xD800 ≤ (b1 - 0xE0) * 0x1000 + (b2 - 0x80) * 0x40 + (b3 - 0x80) ∧
        (b1 - 0xE0) * 0x1000 + (b2 - 0x80) * 0x40 + (b3 - 0x80) < 0xE000)) :
    utf8Decode (b1 :: b2 :: b3 :: bs)
      = (utf8Decode bs).map (fun cs =>
          Char.ofNat ((b1 - 0xE0) * 0x1000 + (b2 - 0x80) * 0x40 + (b3 - 0x80)) :: cs) := by
  simp only [utf8Decode]
  rw [utf8Aux_lead3 b1 (b2 :: b3 :: bs) (by omega) (by omega) (by omega) h2]
  rw [utf8Aux_step2 _ _ _ _ ⟨h3, h4⟩]
  rw [utf8Aux_fin _ _ _ _ ⟨h5, h6⟩ ⟨by omega, by omega, by omega⟩]
  rw [show ((b1 - 0xE0) * 0x40 + (b2 - 0x80)) * 0x40 + (b3 - 0x80)
      = (b1 - 0xE0) * 0x1000 + (b2 - 0x80) * 0x40 + (b3 - 0x80) from by omega]

theorem utf8Decode_four (b1 b2 b3 b4 : Nat) (bs : List Nat)
    (h1 : 0xF0 ≤ b1) (h2 : b1 < 0xF8) (h3 : 0x80 ≤ b2) (h4 : b2 < 0xC0)
    (h5 : 0x80 ≤ b3) (h6 : b3 < 0xC0) (h7 : 0x80 ≤ b4) (h8 : b4 < 0xC0)
    (h9 : 0x10000 ≤ (b1 - 0xF0) * 0x40000 + (b2 - 0x80) * 0x1000
        + (b3 - 0x80) * 0x40 + (b4 - 0x80))
    (h10 : (b1 - 0xF0) * 0x40000 + (b2 - 0x80) * 0x1000
        + (b3 - 0x80) * 0x40 + (b4 - 0x80) < 0x110000) :
    utf8Decode (b1 :: b2 :: b3 :: b4 :: bs)
      = (utf8Decode bs).map (fun cs =>
          Char.ofNat ((b1 - 0xF0) * 0x40000 + (b2 - 0x80) * 0x1000
            + (b3 - 0x80) * 0x40 + (b4 - 0x80)) :: cs) := by
  simp only [utf8Decode]
  rw [utf8Aux_lead4 b1 (b2 :: b3 :: b4 :: bs) (by omega) (by omega) (by omega)
    (by omega) h2]
  rw [utf8Aux_step3 _ _ _ _ ⟨h3, h4⟩]
  rw [utf8Aux_step2 _ _ _ _ ⟨h5, h6⟩]
  rw [utf8Aux_fin _ _ _ _ ⟨h7, h8⟩ ⟨by omega, by omega, by omega⟩]
  rw [show (((b1 - 0xF0) * 0x40 + (b2 - 0x80)) * 0x40 + (b3 - 0x80)) * 0x40 + (b4 - 0x80)
      = (b1 - 0xF0) * 0x40000 + (b2 - 0x80) * 0x1000
          + (b3 - 0x80) * 0x40 + (b4 - 0x80) from by omega]

theorem utf8Decode_encodeChar (c : Char) (bs : List Nat) :
    utf8Decode (utf8EncodeChar c ++ bs) = (utf8Decode bs).map (fun cs => c :: cs) := by
  have hv : Nat.isValidChar c.toNat := c.valid
  by_cases h1 : c.toNat < 0x80
  · rw [show utf8EncodeChar c = [c.toNat] from by simp [utf8EncodeChar, h1]]
    rw [List.singleton_append, utf8Decode_one _ _ h1, Char.ofNat_toNat]
  · by_cases h2 : c.toNat < 0x800
    · rw [show utf8EncodeChar c = [0xC0 + c.toNat / 0x40, 0x80 + c.toNat % 0x40] from by
        simp [utf8EncodeChar, h1, h2]]
      rw [show ([0xC0 + c.toNat / 0x40, 0x80 + c.toNat % 0x40] ++ bs)
          = (0xC0 + c.toNat / 0x40) :: (0x80 + c.toNat % 0x40) :: bs from rfl]
      rw [utf8Decode_two _ _ _ (by omega) (by omega) (by omega) (by omega) (by omega)]
      rw [show (0xC0 + c.toNat / 0x40 - 0xC0) * 0x40 + (0x80 + c.toNat % 0x40 - 0x80)
          = c.toNat from by omega]
      rw [Char.ofNat_toNat]
    · by_cases h3 : c.toNat < 0x10000
      · have hs : ¬ (0xD800 ≤ c.toNat ∧ c.toNat < 0xE000) := by
          rcases hv with hlt | hgt
          · omega
          · omega
        rw [show utf8EncodeChar c = [0xE0 + c.toNat / 0x1000,
            0x80 + c.toNat / 0x40 % 0x40, 0x80 + c.toNat % 0x40] from by
          simp [utf8EncodeChar, h1, h2, h3]]
        rw [show ([0xE0 + c.toNat / 0x1000, 0x80 + c.toNat / 0x40 % 0x40,
            0x80 + c.toNat % 0x40] ++ bs)
          = (0xE0 + c.toNat / 0x1000) :: (0x80 + c.toNat / 0x40 % 0x40)
              :: (0x80 + c.toNat % 0x40) :: bs from rfl]
        rw [utf8Decode_three _ _ _ _ (by omega) (by omega) (by omega) (by omega)
          (by omega) (by omega) (by omega) (by omega)]
        rw [show (0xE0 + c.toNat / 0x1000 - 0xE0) * 0x1000
            + (0x80 + c.toNat / 0x40 % 0x40 - 0x80) * 0x40
            + (0x80 + c.toNat % 0x40 - 0x80) = c.toNat from by omega]
        rw [Char.ofNat_toNat]
      · have h4 : c.toNat < 0x110000 := by
          rcases hv with hlt | hgt
          · omega
          · omega
        rw [show utf8EncodeChar c = [0xF0 + c.toNat / 0x40000,
            0x80 + c.toNat / 0x1000 % 0x40, 0x80 + c.toNat / 0x40 % 0x40,
            0x80 + c.toNat % 0x40] from by simp [utf8EncodeChar, h1, h2, h3]]
        rw [show ([0xF0 + c.toNat / 0x40000, 0x80 + c.toNat / 0x1000 % 0x40,
            0x80 + c.toNat / 0x40 % 0x40, 0x80 + c.toNat % 0x40] ++ bs)
          = (0xF0 + c.toNat / 0x40000) :: (0x80 + c.toNat / 0x1000 % 0x40)
              :: (0x80 + c.toNat / 0x40 % 0x40) :: (0x80 + c.toNat % 0x40) :: bs from rfl]
        rw [utf8Decode_four _ _ _ _ _ (by omega) (by omega) (by omega) (by omega)
          (by omega) (by omega) (by omega) (by omega) (by omega) (by omega)]
        rw [show (0xF0 + c.toNat / 0x40000 - 0xF0) * 0x40000
            + (0x80 + c.toNat / 0x1000 % 0x40 - 0x80) * 0x1000
            + (0x80 + c.toNat / 0x40 % 0x40 - 0x80) * 0x40
            + (0x80 + c.toNat % 0x40 - 0x80) = c.toNat from by omega]
        rw [Char.ofNat_toNat]

theorem utf8Decode_encodeList : ∀ cs : List Char, utf8Decode (utf8EncodeList cs) = some cs
  | [] => rfl
  | c :: cs => by
    rw [show utf8EncodeList (c :: cs) = utf8EncodeChar c ++ utf8EncodeList cs from rfl]
    rw [utf8Decode_encodeChar, utf8Decode_encodeList cs]
    rfl

theorem utf8DecodeStr_encode (s : String) : utf8DecodeStr (utf8Encode s) = some s := by
  simp only [utf8DecodeStr, utf8Encode]
  rw [utf8Decode_encodeList]
  cases s
  rfl

/-- C6: for every response body that is valid UTF-8 text (the bytes of a
string s) whose text fails to parse as JSON of the target shape, the
decoder returns the Serde error carrying both the underlying parse error
and the full decoded text, and that text decodes the body exactly: the
body round-trips to s. -/
theorem c6_parse_error_carries_text {E T : Type} (from_str : String → Except E T)
    (s : String) (e : E) (h : from_str s = Except.error e) :
    deserialize_as from_str (AggregatedBody.ok (utf8Encode s))
        = Except.error (Error.Serde e s) ∧
      utf8DecodeStr (utf8Encode s) = some s := by
  constructor
  · simp only [deserialize_as]
    rw [utf8DecodeStr_encode]
    show (match from_str s with
      | Except.error e0 => Except.error (Error.Serde e0 s)
      | Except.ok v => Except.ok v) = Except.error (Error.Serde e s)
    rw [h]
  · exact utf8DecodeStr_encode s

/-- Witness for C6 at the body "not json" and an always-failing parser. -/
theorem c6_witness :
    deserialize_as (fun _ => Except.error 0 : String → Except Nat Nat)
        (AggregatedBody.ok (utf8Encode "not json"))
      = Except.error (Error.Serde 0 "not json") :=
  (c6_parse_error_carries_text (fun _ => Except.error 0) "not json" 0 rfl).1

/-- C7: for every response body whose bytes are not valid UTF-8 the
decoder returns the IoError kind (the std::io error raised by
read_to_string), which is a different kind from the Serde kind of
JSON-parse failures and from the Hyper kind raised by failures while
buffering the response body stream. -/
theorem c7_invalid_utf8_error_kind {E T : Type} (from_str : String → Except E T)
    (bytes : List Nat) (h : utf8DecodeStr bytes = none) :
    deserialize_as from_str (AggregatedBody.ok bytes) = Except.error Error.IoError ∧
      deserialize_as from_str AggregatedBody.hyperErr = Except.error Error.Hyper ∧
      (∀ (e : E) (text : String), (Error.IoError : Error E) ≠ Error.Serde e text) ∧
      (Error.IoError : Error E) ≠ Error.Hyper := by
  refine ⟨?_, rfl, ?_, ?_⟩
  · simp only [deserialize_as]
    rw [h]
  · intro e text hcontra
    exact Error.noConfusion hcontra
  · intro hcontra
    exact Error.noConfusion hcontra

/-- Witness for C7 at the single-byte body 0xFF, which is not UTF-8. -/
theorem c7_witness :
    deserialize_as (fun _ => Except.error 0 : String → Except Nat Nat)
        (AggregatedBody.ok [0xFF])
      = Except.error Error.IoError :=
  (c7_invalid_utf8_error_kind (fun _ => Except.error 0) [0xFF] rfl).1

/-- C3: every clone derived from one rate-limited source holds the same
limiter allocation (Arc::clone never creates an independent quota), so
when every admission of a trace went through the limiter of some clone
and the one shared limiter instance obeys its quota bound per window,
the aggregate admissions across all clones obey the same bound. -/
theorem c3_shared_limiter_quota (s : RateLimitedDataSource) (tr : List Admission)
    (quota w : Nat)
    (hfrom : ∀ a ∈ tr, ∃ t, DerivedClone s t ∧ a.limiter = t.executeLimiter)
    (hlim : LimiterContract tr s.rate_limiter quota w) :
    (∀ t, DerivedClone s t → t.rate_limiter = s.rate_limiter) ∧
      ∀ t0, admittedTotal tr t0 w ≤ quota := by
  have hshare : ∀ t, DerivedClone s t → t.rate_limiter = s.rate_limiter := by
    intro t ht
    induction ht with
    | refl => rfl
    | step _ ih => exact ih
  refine ⟨hshare, ?_⟩
  intro t0
  have hall : ∀ a ∈ tr, a.limiter = s.rate_limiter := by
    intro a ha
    obtain ⟨t, ht, he⟩ := hfrom a ha
    rw [he, RateLimitedDataSource.executeLimiter, hshare t ht]
  have htotal : admittedTotal tr t0 w = admittedOn tr s.rate_limiter t0 w := by
    unfold admittedTotal admittedOn
    congr 1
    refine (List.filter_congr ?_).symm
    intro a ha
    simp [hall a ha]
  rw [htotal]
  exact hlim t0

/-- Witness for C3 on a two-admission trace of the original source. -/
theorem c3_witness :
    (∀ t, DerivedClone (RateLimitedDataSource.new 0 1) t →
        t.rate_limiter = (RateLimitedDataSource.new 0 1).rate_limiter) ∧
      ∀ t0, admittedTotal [⟨0, 1⟩, ⟨3, 1⟩] t0 5 ≤ 2 :=
  c3_shared_limiter_quota (RateLimitedDataSource.new 0 1) [⟨0, 1⟩, ⟨3, 1⟩] 2 5
    (by
      intro a ha
      refine ⟨RateLimitedDataSource.new 0 1, DerivedClone.refl, ?_⟩
      rcases List.mem_cons.mp ha with h | h
      · rw [h]
        rfl
      · rcases List.mem_cons.mp h with h2 | h2
        · rw [h2]
          rfl
        · simp at h2)
    (fun t0 => le_trans (List.length_filter_le _ _) (by decide))

end OData
